import Mathlib

/-!
Verification of the core of `pie`, a minimal npm-style package-manager client.

This file gives a shallow embedding, in Lean, of the version resolver
(`src/versions.rs`), the on-disk cache queries (`src/cache.rs`) and the
recursive dependency installer (`src/installer.rs`), and proves the spec's
claims about them.

Modelling conventions:
- Rust `u64` version numbers become `Nat` (the resolver never wraps: the
  semver crate rejects numerals that overflow, and no arithmetic besides
  comparison is performed on them).
- Versions are modelled as release triples `major.minor.patch`; pre-release
  and build-metadata tags are outside the modelled domain, so the comparator
  matching rules below inline the semver crate's pre-release comparisons at
  the empty pre-release tag.
- `HashMap` values reaching the resolver are modelled as association lists;
  a list passed to `resolvePartialVersion` stands for one (arbitrary)
  enumeration order of the map, so theorems quantify over all orders.
- Rust panics (`expect`, `unwrap`, index underflow) are modelled as the
  `RunError.panicked` outcome; typed errors as `RunError.cmd`.
-/

namespace Pie

/-- A parsed semantic version: a release triple (see modelling conventions). -/
structure SemVer where
major : Nat
minor : Nat
patch : Nat
deriving DecidableEq, Repr

/-- Lexicographic order on version triples: the order `semver::Version`'s
`Ord` instance induces on release versions. -/
def SemVer.le (a b : SemVer) : Prop :=
a.major < b.major ∨ (a.major = b.major ∧ (a.minor < b.minor ∨ (a.minor = b.minor ∧ a.patch ≤ b.patch)))

/-- Strict version of `SemVer.le`. -/
def SemVer.lt (a b : SemVer) : Prop :=
a.major < b.major ∨ (a.major = b.major ∧ (a.minor < b.minor ∨ (a.minor = b.minor ∧ a.patch < b.patch)))

instance : DecidableRel SemVer.le := fun a b => by
unfold SemVer.le
exact inferInstance

instance : DecidableRel SemVer.lt := fun a b => by
unfold SemVer.lt
exact inferInstance

/-- `utils::EMPTY_VERSION`, the `0.0.0` fallback version. -/
def emptyVersion : SemVer := ⟨0, 0, 0⟩

/-- `utils::LATEST`. -/
def latestStr : String := "latest"

/-- One digit character to its value. -/
def digitVal (c : Char) : Nat := c.toNat - '0'.toNat

/-- Big-endian digit accumulation. -/
def digitsToNat : List Char → Nat → Nat
| [], acc => acc
| c :: cs, acc => digitsToNat cs (acc * 10 + digitVal c)

/-- Parse one numeric semver component: non-empty, all digits, and no leading
zero (the grammar the semver crate accepts for a numeric identifier). -/
def parseNumStrict (cs : List Char) : Option Nat :=
if cs ≠ [] ∧ cs.all Char.isDigit ∧ (cs.length = 1 ∨ cs.head? ≠ some '0') then
some (digitsToNat cs 0)
else
none

/-- Split a character list on a separator, keeping empty pieces (like Rust
`split(sep)` for a one-character pattern). -/
def splitOnChar (sep : Char) : List Char → List (List Char)
| [] => [[]]
| c :: cs =>
match splitOnChar sep cs with
| [] => [[]]
| piece :: rest => if c = sep then [] :: piece :: rest else (c :: piece) :: rest

/-- Split a character list on '.'. -/
def splitDots (cs : List Char) : List (List Char) :=
splitOnChar '.' cs

/-- `pre` is a prefix of `s` (character-list model of `str::starts_with`). -/
def listPrefixB : List Char → List Char → Bool
| [], _ => true
| _ :: _, [] => false
| a :: as, b :: bs => a = b && listPrefixB as bs

/-- `str::starts_with` on the modelled (character-list) strings. -/
def strStartsWith (s pre : String) : Bool :=
listPrefixB pre.toList s.toList

/-- `str::ends_with` on the modelled (character-list) strings. -/
def strEndsWith (s suf : String) : Bool :=
listPrefixB suf.toList.reverse s.toList.reverse

/-- `semver::Version::from_str` on the modelled domain: a strict
`major.minor.patch` release triple. -/
def parseVersion (s : String) : Option SemVer :=
match (splitDots s.toList).map parseNumStrict with
| [some a, some b, some c] => some ⟨a, b, c⟩
| _ => none

/-- Sort key used when comparing version strings: the parse result, with the
`0.0.0` default where the caller guarantees (or falls back to) parseability. -/
def vKey (s : String) : SemVer := (parseVersion s).getD emptyVersion

/-- `semver::Op`: the comparator operators. -/
inductive Op where
| exact
| greater
| greaterEq
| less
| lessEq
| tilde
| caret
| wildcard
deriving DecidableEq, Repr

/-- `semver::Comparator`: an operator plus a partially given version triple. -/
structure Comparator where
op : Op
major : Nat
minor : Option Nat
patch : Option Nat
deriving DecidableEq, Repr

/-- semver crate `matches_exact`, at the empty pre-release tag. -/
def matchesExact (c : Comparator) (v : SemVer) : Bool :=
if v.major ≠ c.major then false
else
match c.minor with
| none => true
| some m =>
if v.minor ≠ m then false
else
match c.patch with
| none => true
| some p => v.patch = p

/-- semver crate `matches_greater`, at the empty pre-release tag. -/
def matchesGreater (c : Comparator) (v : SemVer) : Bool :=
if v.major ≠ c.major then decide (v.major > c.major)
else
match c.minor with
| none => false
| some m =>
if v.minor ≠ m then decide (v.minor > m)
else
match c.patch with
| none => false
| some p =>
if v.patch ≠ p then decide (v.patch > p)
else false

/-- semver crate `matches_less`, at the empty pre-release tag. -/
def matchesLess (c : Comparator) (v : SemVer) : Bool :=
if v.major ≠ c.major then decide (v.major < c.major)
else
match c.minor with
| none => false
| some m =>
if v.minor ≠ m then decide (v.minor < m)
else
match c.patch with
| none => false
| some p =>
if v.patch ≠ p then decide (v.patch < p)
else false

/-- semver crate `matches_tilde`, at the empty pre-release tag. -/
def matchesTilde (c : Comparator) (v : SemVer) : Bool :=
if v.major ≠ c.major then false
else
match c.minor with
| none => true
| some m =>
if v.minor ≠ m then false
else
match c.patch with
| none => true
| some p =>
if v.patch ≠ p then decide (v.patch > p)
else true

/-- semver crate `matches_caret`, at the empty pre-release tag. -/
def matchesCaret (c : Comparator) (v : SemVer) : Bool :=
if v.major ≠ c.major then false
else
match c.minor with
| none => true
| some m =>
match c.patch with
| none =>
if c.major > 0 then decide (v.minor ≥ m) else decide (v.minor = m)
| some p =>
if c.major > 0 then
(if v.minor ≠ m then decide (v.minor > m)
else if v.patch ≠ p then decide (v.patch > p)
else true)
else if m > 0 then
(if v.minor ≠ m then false
else if v.patch ≠ p then decide (v.patch > p)
else true)
else
(if v.minor ≠ m ∨ v.patch ≠ p then false else true)

/-- `semver::Comparator::matches`, dispatching on the operator. -/
def Comparator.matches (c : Comparator) (v : SemVer) : Bool :=
match c.op with
| Op.exact => matchesExact c v
| Op.wildcard => matchesExact c v
| Op.greater => matchesGreater c v
| Op.greaterEq => matchesExact c v || matchesGreater c v
| Op.less => matchesLess c v
| Op.lessEq => matchesExact c v || matchesLess c v
| Op.tilde => matchesTilde c v
| Op.caret => matchesCaret c v

/-- `Versions::stringify_from_nums`: `format!("{}.{}.{}", major, minor, patch)`. -/
def stringifyFromNums (major minor patch : Nat) : String :=
toString major ++ "." ++ toString minor ++ "." ++ toString patch

/-- Re-stringify a parsed version, as `semver::Version::to_string` does for a
release triple. -/
def stringifyVer (v : SemVer) : String :=
stringifyFromNums v.major v.minor v.patch

/-- `Versions::stringify`: the fingerprint `"{name}@{version}"`. -/
def stringify (name version : String) : String :=
name ++ "@" ++ version

/-- `Versions::is_latest`. -/
def isLatestStr (version : Option String) : Bool :=
match version with
| some v => v = latestStr
| none => false

/-- `Versions::parse_raw_package_details`: split on the first `@`; a missing
version part defaults to `"latest"`. -/
def parseRawPackageDetails (package : String) : String × String :=
match splitOnChar '@' package.toList with
| [] => ("", latestStr)
| [name] => (name.asString, latestStr)
| name :: v :: _ => (name.asString, v.asString)

/-- `Versions::resolve_full_version`. -/
def resolveFullVersion (semanticVersion : Option Comparator) : Option String :=
match semanticVersion with
| none => some latestStr
| some sv =>
match sv.minor, sv.patch with
| some minor, some patch =>
(match sv.op with
| Op.greater => some latestStr
| Op.greaterEq => some latestStr
| Op.wildcard => some latestStr
| Op.exact => some (stringifyFromNums sv.major minor patch)
| Op.lessEq => some (stringifyFromNums sv.major minor patch)
| Op.tilde => some (stringifyFromNums sv.major minor patch)
| Op.caret => some (stringifyFromNums sv.major minor patch)
| Op.less => none)
| _, _ => none

/-- The mapping claimed by the spec for `resolve_full_version`, written from
the spec's words (refinement counterpart of `resolveFullVersion`): `None`
yields `Some "latest"`; a missing minor or patch yields `None`; with a full
triple, `>`, `>=` and wildcard yield `Some "latest"`; `=`, `<=`, `~`, `^`
yield the literal triple; `<` (and anything else) yields `None`. -/
def resolveFullVersionSpec (semanticVersion : Option Comparator) : Option String :=
match semanticVersion with
| none => some latestStr
| some sv =>
match sv.minor, sv.patch with
| some minor, some patch =>
(if sv.op = Op.greater ∨ sv.op = Op.greaterEq ∨ sv.op = Op.wildcard then
some latestStr
else if sv.op = Op.exact ∨ sv.op = Op.lessEq ∨ sv.op = Op.tilde ∨ sv.op = Op.caret then
some (stringifyFromNums sv.major minor patch)
else none)
| _, _ => none

/-- The `errors::CommandError` variants reached by the modelled code (the
enum lives in `src/errors.rs`; the variants and where they arise are fixed by
their construction sites in the modelled sources). -/
inductive CommandErr where
| invalidVersion
| failedToGetTarball
| httpFailed
| noCacheDirectory
deriving DecidableEq, Repr

/-- Outcome of a modelled computation: a typed error or a Rust panic
(`expect` / `unwrap` / index underflow), with the panic message. -/
inductive RunError where
| cmd (e : CommandErr)
| panicked (msg : String)
deriving DecidableEq, Repr

/-- `types::VersionData`: one registry version record. `dependencies` maps a
dependency name to its declared range string; `tarball` is `dist.tarball`. -/
structure VersionData where
name : String
version : String
dependencies : List (String × String)
tarball : String
deriving DecidableEq, Repr

/-- The sort key of one map entry: the parse of its version string. -/
def keyOf (kv : String × VersionData) : SemVer :=
vKey kv.1

/-- Comparison used by `Versions::sort`, on the parse results of the two keys
(the `expect` on a failed parse is handled by `sortVersionsChecked`). -/
def pairLe (a b : String × VersionData) : Prop :=
SemVer.le (vKey a.1) (vKey b.1)

instance : DecidableRel pairLe := fun a b => by
unfold pairLe
exact inferInstance

/-- All keys of the list parse as semantic versions. -/
def allKeysParse (vs : List (String × VersionData)) : Bool :=
vs.all (fun kv => (parseVersion kv.1).isSome)

/-- `Versions::sort`: sorts ascending by parsed semantic version, and panics
(`expect("Failed to parse version")`) on a key that fails to parse. A list of
at most one entry needs no comparison, so the panicking comparator never runs
and the list is returned as is; with two or more entries every element takes
part in at least one comparison, so any unparseable key panics. -/
def sortVersionsChecked (vs : List (String × VersionData)) :
Except RunError (List (String × VersionData)) :=
if vs.length ≤ 1 then Except.ok vs
else if allKeysParse vs then Except.ok (vs.insertionSort pairLe)
else Except.error (RunError.panicked "Failed to parse version")

/-- `Vec::iter().position(...)`: index of the first element satisfying `p`. -/
def findPos (p : α → Bool) : List α → Option Nat
| [] => none
| a :: l => if p a then some 0 else (findPos p l).map (· + 1)

/-- The descending scan of `resolve_partial_version` (lines 92-98): walk the
given list (already reversed to highest-first), parse each key with the
`EMPTY_VERSION` fallback, and return the re-stringified parse of the first
one the comparator matches. -/
def descendingScan (c : Comparator) : List (String × VersionData) → Except RunError String
| [] => Except.error (RunError.cmd CommandErr.invalidVersion)
| kv :: rest =>
let v := (parseVersion kv.1).getD emptyVersion
if c.matches v then Except.ok (stringifyVer v) else descendingScan c rest

/-- `Versions::resolve_partial_version`. -/
def resolvePartialVersion (semanticVersion : Option Comparator)
(availableVersions : List (String × VersionData)) : Except RunError String :=
match semanticVersion with
| none =>
Except.error (RunError.panicked "Function should not be called as the version can be resolved to latest")
| some c =>
match sortVersionsChecked availableVersions with
| Except.error e => Except.error e
| Except.ok versions =>
match (if c.op = Op.less then
(match c.minor, c.patch with
| some minor, some patch =>
some (findPos (fun kv => kv.1 = stringifyFromNums c.major minor patch) versions)
| _, _ => none)
else none) with
| some none => Except.error (RunError.cmd CommandErr.invalidVersion)
| some (some pos) =>
-- `versions.get(version_pos - 1)`: at position 0 the usize subtraction
-- underflows (debug: panic) or wraps past the end so that the `.get`
-- returns `None` and the `expect` panics (release); both are the panic.
if pos = 0 then Except.error (RunError.panicked "No previous version found")
else
(match versions.get? (pos - 1) with
| some kv => Except.ok kv.1
| none => Except.error (RunError.panicked "No previous version found"))
| none => descendingScan c versions.reverse

/-- Association-list lookup, standing for `HashMap::get`. -/
def alookup {κ β : Type} [DecidableEq κ] : List (κ × β) → κ → Option β
| [], _ => none
| (k, v) :: rest, key => if k = key then some v else alookup rest key

/-- Association-list insert-or-replace, standing for `HashMap::insert`. -/
def ainsert {κ β : Type} [DecidableEq κ] (m : List (κ × β)) (k : κ) (v : β) : List (κ × β) :=
(k, v) :: m.filter (fun p => p.1 ≠ k)

/-- Association-list in-place value replacement, standing for mutating an
occupied `HashMap` entry. -/
def aupdate {κ β : Type} [DecidableEq κ] : List (κ × β) → κ → β → List (κ × β)
| [], _, _ => []
| (k, v) :: rest, key, nv => if k = key then (key, nv) :: rest else (k, v) :: aupdate rest key nv

/-- `cache::CachedVersion`. -/
structure CachedVersion where
version : String
isLatest : Bool
deriving DecidableEq, Repr

/-- The cache-relevant state of the process: the pre-loaded `CACHED_VERSIONS`
map and the file names in the `CACHE_DIR` directory (`none`: the directory
cannot be read). -/
structure CacheState where
cachedVersions : List (String × CachedVersion)
dirEntries : Option (List String)
deriving DecidableEq, Repr

/-- `Cache::get_latest_version_in_cache`. -/
def getLatestVersionInCache (cs : CacheState) (packageName : String) : Option String :=
match alookup cs.cachedVersions packageName with
| some v => if v.isLatest then some v.version else none
| none => none

/-- `Cache::is_in_cache`. -/
def isInCache (cs : CacheState) (package version : String) : Bool :=
match alookup cs.cachedVersions package with
| some v => v.version = version
| none => false

/-- The directory scan of `Cache::exists` (lines 57-75): first entry whose
file name has the package name as a prefix and whose version suffix — parsed
with the `EMPTY_VERSION` fallback — matches the comparator. -/
def cacheScan (packageName : String) (semVer : Comparator) :
List String → Bool × Option String
| [] => (false, none)
| filename :: rest =>
if ¬ strStartsWith filename packageName then cacheScan packageName semVer rest
else
let entryVersion := (parseRawPackageDetails filename).2
let v := (parseVersion entryVersion).getD emptyVersion
if semVer.matches v then (true, some entryVersion)
else cacheScan packageName semVer rest

/-- `Cache::exists`. -/
def cacheExists (cs : CacheState) (packageName : String) (version : Option String)
(semVer : Option Comparator) : Except RunError (Bool × Option String) :=
match version with
| some v =>
if v = latestStr then
(let latestVersion := getLatestVersionInCache cs packageName
Except.ok (latestVersion.isSome, latestVersion))
else Except.ok (isInCache cs packageName v, some v)
| none =>
match cs.dirEntries with
| none => Except.error (RunError.cmd CommandErr.noCacheDirectory)
| some entries =>
match semVer with
| none => Except.error (RunError.panicked "Failed to get semver")
| some sv => Except.ok (cacheScan packageName sv entries)

/-- The cache directory as `Cache::get_cached_versions` sees it: the entry
names under `CACHE_DIR`, and for each entry the content of its
`package/pie-lock.json` (`none`: the file is missing or unreadable). Content
is modelled as its byte string (the lock files are ASCII JSON). -/
structure LockFS where
entries : List String
lockContent : List (String × Option String)
deriving DecidableEq, Repr

/-- Process one entry of `Cache::get_cached_versions`: open the lock file
(panic if that fails), seek to byte 12 and read bytes 12..=15 (panic if the
file is too short), and report `is_latest` as whether those four bytes are
the literal `true` — a fixed-byte-offset read of the serialized lock, not a
structured parse. -/
def readLockIsLatest (fs : LockFS) (filename : String) : Except RunError Bool :=
match alookup fs.lockContent filename with
| none => Except.error (RunError.panicked "Failed to open lock file")
| some none => Except.error (RunError.panicked "Failed to open lock file")
| some (some content) =>
if content.length < 16 then Except.error (RunError.panicked "failed to fill whole buffer")
else Except.ok (((content.toList.drop 12).take 4) = "true".toList)

/-- The entry loop of `Cache::get_cached_versions`: any failing entry panics,
aborting the whole load. -/
def getCachedVersionsLoop (fs : LockFS) :
List String → List (String × CachedVersion) → Except RunError (List (String × CachedVersion))
| [], acc => Except.ok acc
| filename :: rest, acc =>
match readLockIsLatest fs filename with
| Except.error e => Except.error e
| Except.ok isLatest =>
let nv := parseRawPackageDetails filename
getCachedVersionsLoop fs rest (ainsert acc nv.1 ⟨nv.2, isLatest⟩)

/-- `Cache::get_cached_versions`. -/
def getCachedVersions (fs : LockFS) : Except RunError (List (String × CachedVersion)) :=
getCachedVersionsLoop fs fs.entries []

/-- `types::PackageLock`. -/
structure PackageLock where
isLatest : Bool
dependencies : List String
deriving DecidableEq, Repr

/-- `PackageLock::new`. -/
def PackageLock.new (isLatest : Bool) : PackageLock :=
⟨isLatest, []⟩

/-- `types::DependencyMap`, the shared lock map of one install run. -/
abbrev DependencyMap := List (String × PackageLock)

/-- `Installer::already_resolved`: look the fingerprint up in the dependency
map and — under the same lock acquisition — insert a fresh empty lock record
when it is absent. Returns whether the fingerprint was already present. -/
def alreadyResolved (name version : String) (isLatest : Bool) (m : DependencyMap) :
Bool × DependencyMap :=
let strV := stringify name version
match alookup m strV with
| some _ => (true, m)
| none => (false, ainsert m strV (PackageLock.new isLatest))

/-- Ghost trace events instrumenting one install run: a fresh lock-record
insertion into the dependency map, the download-and-hand-off-to-extraction
step for a fingerprint (`HttpRequest::get_bytes` followed by the send into
the extraction channel), and a registry metadata fetch for a dependency name
(`Installer::get_version_data`, both of whose branches perform HTTP). -/
inductive Event where
| insertFp (fp : String)
| download (fp : String)
| fetch (name : String)
deriving DecidableEq, Repr

/-- Count occurrences of an event in a trace. -/
def countEv (e : Event) : List Event → Nat
| [] => 0
| x :: xs => (if x = e then 1 else 0) + countEv e xs

/-- The mutable state one install run threads through `install_package`: the
shared dependency map, the `ACTIVE_TASKS` counter, and the ghost trace. -/
structure St where
depMap : DependencyMap
active : Nat
events : List Event
deriving DecidableEq, Repr

/-- Record a ghost event. -/
def pushEvent (st : St) (e : Event) : St :=
{ st with events := e :: st.events }

/-- `Installer::already_resolved` acting on the run state, recording a ghost
`insertFp` event when the fingerprint is freshly inserted. -/
def alreadyResolvedSt (name version : String) (isLatest : Bool) (st : St) : Bool × St :=
match alreadyResolved name version isLatest st.depMap with
| (true, m) => (true, { st with depMap := m })
| (false, m) =>
(false, { st with depMap := m, events := Event.insertFp (stringify name version) :: st.events })

/-- `Installer::append_version`: get-or-create the parent's lock record — a
created record seeds `is_latest` from whether the parent string ends in the
literal `"latest"` — and push the child string onto its dependency list. -/
def appendVersion (parentVersionName newVersionName : String) (m : DependencyMap) : DependencyMap :=
match alookup m parentVersionName with
| some lock =>
    aupdate m parentVersionName { lock with dependencies := lock.dependencies ++ [newVersionName] }
| none =>
    ainsert m parentVersionName
      { isLatest := strEndsWith parentVersionName latestStr, dependencies := [newVersionName] }

/-- `Installer::append_version` on the run state, with the ghost `insertFp`
event when the `or_insert` creates the parent's record. -/
def appendVersionSt (parentVersionName newVersionName : String) (st : St) : St :=
match alookup st.depMap parentVersionName with
| some _ => { st with depMap := appendVersion parentVersionName newVersionName st.depMap }
| none =>
    { depMap := appendVersion parentVersionName newVersionName st.depMap
      active := st.active
      events := Event.insertFp parentVersionName :: st.events }

/-- Modelled subset of `semver::VersionReq::parse` followed by
`comparators.remove(0)` (`Versions::parse_semantic_version`): one comparator
with an optional operator prefix — a bare version defaults to caret, as in
the semver crate — and a numeric triple that may omit minor and patch.
Wildcard components, whitespace and compound ranges are outside the modelled
grammar and map to `none`; at the installer's call site `none` stands for the
`expect` panic on any unparseable range, which is also what the real parser's
failures produce there. -/
def parseRange (raw : String) : Option Comparator :=
let p : Option Op × List Char :=
match raw.toList with
| '>' :: '=' :: rest => (some Op.greaterEq, rest)
| '<' :: '=' :: rest => (some Op.lessEq, rest)
| '>' :: rest => (some Op.greater, rest)
| '<' :: rest => (some Op.less, rest)
| '=' :: rest => (some Op.exact, rest)
| '^' :: rest => (some Op.caret, rest)
| '~' :: rest => (some Op.tilde, rest)
| rest => (none, rest)
match (splitDots p.2).map parseNumStrict with
| [some a] => some ⟨p.1.getD Op.caret, a, none, none⟩
| [some a, some b] => some ⟨p.1.getD Op.caret, a, some b, none⟩
| [some a, some b, some c] => some ⟨p.1.getD Op.caret, a, some b, some c⟩
| _ => none

/-- The fixed external world of one install run: the registry's
version-metadata endpoint (`HttpRequest::version_data`, keyed by name and
version), its full-version-list endpoint (`HttpRequest::package_data`), the
set of tarball URLs whose download fails, and the cache state. -/
structure InstallEnv where
direct : List ((String × String) × VersionData)
packageVersions : List (String × List (String × VersionData))
failedUrls : List String
cache : CacheState
deriving Repr

/-- `Installer::get_version_data`: with a resolved full version, hit the
direct version endpoint; otherwise fetch the package's full version list and
resolve the comparator against it with `resolve_partial_version`, then look
the resolved version up in the list (the `expect` panics if it is absent). -/
def getVersionData (env : InstallEnv) (packageName : String) (fullVersion : Option String)
(version : Option Comparator) : Except RunError VersionData :=
match fullVersion with
| some v =>
(match alookup env.direct (packageName, v) with
| some vd => Except.ok vd
| none => Except.error (RunError.cmd CommandErr.httpFailed))
| none =>
match alookup env.packageVersions packageName with
| none => Except.error (RunError.cmd CommandErr.httpFailed)
| some versions =>
match resolvePartialVersion version versions with
| Except.error e => Except.error e
| Except.ok pv =>
match alookup versions pv with
| some vd => Except.ok vd
| none =>
Except.error (RunError.panicked "Failed to find resolved package version in package data")

/-- One iteration of the dependency loop of `Installer::install_package`
(lines 112-131), with `recur` standing for the recursive `install_package`
call. A `?`-propagated error from an earlier iteration freezes the fold, as
Rust's early return does. The cache result's boolean component gates the
short-circuit (`continue`); the errors the loop `unwrap`s become panics. -/
def installStep (env : InstallEnv) (recur : VersionData → Bool → St → St × Except RunError Unit)
(stringifiedParent : String) (acc : St × Except RunError Unit) (dep : String × String) :
St × Except RunError Unit :=
match acc with
| (st, Except.error e) => (st, Except.error e)
| (st, Except.ok _) =>
match parseRange dep.2 with
| none => (st, Except.error (RunError.panicked "Failed to parse semantic version"))
| some v =>
let fullVersion := resolveFullVersion (some v)
match cacheExists env.cache dep.1 fullVersion (some v) with
| Except.error _ => (st, Except.error (RunError.panicked "called unwrap on an Err value"))
| Except.ok (isCached, _) =>
if isCached then (st, Except.ok ())
else
let st1 := pushEvent st (Event.fetch dep.1)
match getVersionData env dep.1 fullVersion (some v) with
| Except.error _ => (st1, Except.error (RunError.panicked "called unwrap on an Err value"))
| Except.ok versionData =>
let stringifiedVersion := stringify dep.1 dep.2
let st2 := appendVersionSt stringifiedParent stringifiedVersion st1
recur versionData (isLatestStr fullVersion) st2

/-- `Installer::install_package`, interpreted sequentially (the function
awaits each dependency's recursion in turn; only extraction runs on another
thread and is represented by the `download` trace event). `fuel` bounds the
modelled recursion depth and is an artifact of the embedding: running out of
fuel is reported as a panic outcome no actual run produces. -/
def installPackage (env : InstallEnv) : Nat → VersionData → Bool → St → St × Except RunError Unit
| 0, _, _, st => (st, Except.error (RunError.panicked "modelling fuel exhausted"))
| Nat.succ fuel, versionData, isLatest, st =>
match alreadyResolvedSt versionData.name versionData.version isLatest st with
| (true, st1) => (st1, Except.ok ())
| (false, st1) =>
let stringifiedParent := stringify versionData.name versionData.version
let st2 : St := { st1 with active := st1.active + 1 }
if env.failedUrls.contains versionData.tarball then
(st2, Except.error (RunError.cmd CommandErr.failedToGetTarball))
else
let st3 := pushEvent st2 (Event.download stringifiedParent)
match versionData.dependencies.foldl
    (installStep env (installPackage env fuel) stringifiedParent) (st3, Except.ok ()) with
| (st4, Except.ok _) => ({ st4 with active := st4.active - 1 }, Except.ok ())
| (st4, Except.error e) => (st4, Except.error e)

/-- The dedup invariant an install run maintains: every fingerprint's lock
record has been freshly inserted exactly once iff the fingerprint is a key of
the dependency map (and never again afterwards), and the download/extraction
step has run at most as often as that — hence at most once per fingerprint. -/
def Inv (st : St) : Prop :=
∀ fp, countEv (Event.insertFp fp) st.events = (if (alookup st.depMap fp).isSome then 1 else 0)
  ∧ countEv (Event.download fp) st.events ≤ countEv (Event.insertFp fp) st.events

theorem alookup_filter_ne {β : Type} (m : List (String × β)) (k k' : String) (h : ¬ k = k') :
    alookup (m.filter (fun p => p.1 ≠ k)) k' = alookup m k' := by
  induction m with
  | nil => rfl
  | cons p rest ih =>
      by_cases hp : p.1 = k
      · rw [List.filter_cons_of_neg (by simp [hp])]
        rw [ih]
        have hpk : ¬ p.1 = k' := fun he => h (hp ▸ he)
        simp [alookup, hpk]
      · rw [List.filter_cons_of_pos (by simp [hp])]
        simp only [ne_eq, decide_not] at ih
        by_cases hpk : p.1 = k' <;> simp [alookup, hpk, ih]

theorem alookup_ainsert {β : Type} (m : List (String × β)) (k k' : String) (v : β) :
    alookup (ainsert m k v) k' = if k = k' then some v else alookup m k' := by
  unfold ainsert
  by_cases h : k = k'
  · simp [alookup, h]
  · simp only [alookup, h, if_neg, if_false]
    exact alookup_filter_ne m k k' h

theorem alookup_aupdate {β : Type} (m : List (String × β)) (k k' : String) (v : β) :
    alookup (aupdate m k v) k' =
      if k = k' then (alookup m k).map (fun _ => v) else alookup m k' := by
  induction m with
  | nil => by_cases h : k = k' <;> simp [aupdate, alookup, h]
  | cons p rest ih =>
      obtain ⟨pk, pv⟩ := p
      by_cases hp : pk = k
      · subst hp
        by_cases h : pk = k' <;> simp [aupdate, alookup, h]
      · have hne : ¬ ((pk, pv) : String × β).1 = k := hp
        by_cases h : k = k'
        · subst h
          simp [aupdate, alookup, hp, ih]
        · by_cases hpk : pk = k'
          · subst hpk
            simp [aupdate, alookup, Ne.symm hp, h, Ne.symm h, ih, alookup]
          · simp [aupdate, alookup, hp, hpk, ih, h]

theorem countEv_cons (e x : Event) (xs : List Event) :
    countEv e (x :: xs) = (if x = e then 1 else 0) + countEv e xs := rfl

/-- C5: `resolve_full_version` implements exactly the claimed mapping: a
missing range yields `Some "latest")`; a range missing minor or patch yields
`None`; with a full triple the operators `>`, `>=` and wildcard yield
`Some "latest"`, the operators `=`, `<=`, `~`, `^` yield the literal
`"major.minor.patch"`, and `<` (or anything else) yields `None`. -/
theorem c5_resolve_full_mapping :
    ∀ semanticVersion : Option Comparator,
      resolveFullVersion semanticVersion = resolveFullVersionSpec semanticVersion := by
  intro sv
  match sv with
  | none => rfl
  | some ⟨op, major, minor, patch⟩ =>
      cases minor <;> cases patch <;> cases op <;> rfl

/-- C10: in range-only mode `Cache::exists` candidate-matches any directory
entry whose file name merely starts with the package name, and falls back to
`0.0.0` for an unparseable version suffix: a lookup for `"foo"` under range
`^1.0.0` hits the entry `"foobar@1.2.3"` of the different package `"foobar"`,
and a lookup for `"foo"` under range `<0.1.0` hits `"foo@bad"` because the
unparseable suffix `"bad"` is tested as `0.0.0`. -/
theorem c10_cache_prefix_quirk :
    cacheExists ⟨[], some ["foobar@1.2.3"]⟩ "foo" none (some ⟨Op.caret, 1, some 0, some 0⟩)
      = Except.ok (true, some "1.2.3")
  ∧ cacheExists ⟨[], some ["foo@bad"]⟩ "foo" none (some ⟨Op.less, 0, some 1, some 0⟩)
      = Except.ok (true, some "bad") := by
  constructor <;> rfl

/-- C2 (the failing path): when the tarball download fails,
`install_package` returns `FailedToGetTarball` with `ACTIVE_TASKS` still at 1
— the increment before the download is never matched by a decrement on the
error exit, leaking a count with no work in flight. -/
theorem c2_counter_leak :
    installPackage ⟨[], [], ["urlA"], ⟨[], some []⟩⟩ 5
        ⟨"A", "1.0.0", [("B", "^1.0.0")], "urlA"⟩ false ⟨[], 0, []⟩
      = (⟨[("A@1.0.0", PackageLock.new false)], 1, [Event.insertFp "A@1.0.0"]⟩,
         Except.error (RunError.cmd CommandErr.failedToGetTarball)) := by
  rfl

theorem semVerLe_refl (a : SemVer) : SemVer.le a a := by
  unfold SemVer.le
  omega

theorem semVerLe_trans {a b c : SemVer} (h1 : SemVer.le a b) (h2 : SemVer.le b c) :
    SemVer.le a c := by
  unfold SemVer.le at *
  omega

theorem semVerLe_total (a b : SemVer) : SemVer.le a b ∨ SemVer.le b a := by
  unfold SemVer.le
  omega

theorem semVerLe_antisymm {a b : SemVer} (h1 : SemVer.le a b) (h2 : SemVer.le b a) : a = b := by
  obtain ⟨a1, a2, a3⟩ := a
  obtain ⟨b1, b2, b3⟩ := b
  unfold SemVer.le at *
  simp only [SemVer.mk.injEq]
  dsimp only at h1 h2
  omega

theorem semVerLt_of_le_of_ne {a b : SemVer} (h1 : SemVer.le a b) (h2 : a ≠ b) :
    SemVer.lt a b := by
  obtain ⟨a1, a2, a3⟩ := a
  obtain ⟨b1, b2, b3⟩ := b
  simp only [ne_eq, SemVer.mk.injEq, not_and] at h2
  unfold SemVer.le SemVer.lt at *
  dsimp only at h1 ⊢
  by_cases e1 : a1 = b1
  · by_cases e2 : a2 = b2
    · have := h2 e1 e2
      omega
    · omega
  · omega

theorem semVerLt_asymm {a b : SemVer} (h : SemVer.lt a b) : ¬ SemVer.lt b a := by
  unfold SemVer.lt at *
  omega

theorem semVerLt_irrefl (a : SemVer) : ¬ SemVer.lt a a := by
  unfold SemVer.lt
  omega

theorem semVerLe_of_lt {a b : SemVer} (h : SemVer.lt a b) : SemVer.le a b := by
  unfold SemVer.lt at h
  unfold SemVer.le
  omega

instance : IsTotal (String × VersionData) pairLe :=
  ⟨fun a b => semVerLe_total (vKey a.1) (vKey b.1)⟩

instance : IsTrans (String × VersionData) pairLe :=
  ⟨fun _ _ _ h1 h2 => semVerLe_trans h1 h2⟩

/-- `insertionSort` of a list of length at most one is that list. -/
theorem insertionSort_short {α : Type} (r : α → α → Prop) [DecidableRel r]
    (l : List α) (h : l.length ≤ 1) : l.insertionSort r = l := by
  match l with
  | [] => rfl
  | [a] => rfl
  | a :: b :: t => simp at h

/-- When every key parses, `Versions::sort` succeeds and returns the
insertion sort of the list under the parsed-key order. -/
theorem sortVersionsChecked_ok (vs : List (String × VersionData))
    (h : allKeysParse vs = true) :
    sortVersionsChecked vs = Except.ok (vs.insertionSort pairLe) := by
  unfold sortVersionsChecked
  by_cases hl : vs.length ≤ 1
  · rw [if_pos hl, insertionSort_short pairLe vs hl]
  · rw [if_neg hl, if_pos h]
/-- C6 counterexample: with available versions `{"garbage", "1.0.0"}` and
range `^1.0.0`, resolution aborts with the sorting panic
`"Failed to parse version"` — the unparseable key is a parse failure that
aborts resolution, not a value that sorts as `0.0.0` (were the claim right,
the result would be `Except.ok "1.0.0"`). -/
theorem c6_sort_counterexample :
    resolvePartialVersion (some ⟨Op.caret, 1, some 0, some 0⟩)
        [("garbage", ⟨"x", "1.0.0", [], "u"⟩), ("1.0.0", ⟨"x", "1.0.0", [], "u"⟩)]
      = Except.error (RunError.panicked "Failed to parse version") := by
  rfl

/-- C6 (amended): `resolve_partial_version` sorts the available versions
ascending by semantic-version order, but a key that fails to parse makes the
sorting comparator panic and aborts resolution whenever the list has at
least two entries; the `0.0.0` fallback exists only in the descending match
scan — reachable e.g. for a singleton unparseable list, where the sort makes
no comparison and the scan then matches the key as `0.0.0`. -/
theorem c6_sort_amended :
    (∀ vs : List (String × VersionData), allKeysParse vs = true →
      ∃ sorted : List (String × VersionData),
        sortVersionsChecked vs = Except.ok sorted ∧ sorted.Perm vs ∧ List.Sorted pairLe sorted)
  ∧ (∀ vs : List (String × VersionData), 2 ≤ vs.length → allKeysParse vs = false →
      sortVersionsChecked vs = Except.error (RunError.panicked "Failed to parse version"))
  ∧ resolvePartialVersion (some ⟨Op.caret, 0, some 0, some 0⟩)
        [("garbage", ⟨"x", "1.0.0", [], "u"⟩)]
      = Except.ok "0.0.0" := by
  refine ⟨fun vs h => ⟨vs.insertionSort pairLe, sortVersionsChecked_ok vs h,
    List.perm_insertionSort pairLe vs, List.sorted_insertionSort pairLe vs⟩, fun vs hl h => ?_, rfl⟩
  unfold sortVersionsChecked
  rw [if_neg (by omega), if_neg (by simp [h])]

/-- C6 witness for the amended claim: at the concrete two-entry list
`{"1.1.0", "1.0.0"}` every key parses and the sort succeeds, returning a
sorted permutation. -/
theorem c6_sort_amended_witness :
    allKeysParse [("1.1.0", ⟨"x", "1.1.0", [], "u"⟩), ("1.0.0", ⟨"x", "1.0.0", [], "u"⟩)] = true
  ∧ ∃ sorted : List (String × VersionData),
      sortVersionsChecked [("1.1.0", ⟨"x", "1.1.0", [], "u"⟩), ("1.0.0", ⟨"x", "1.0.0", [], "u"⟩)]
        = Except.ok sorted ∧
      sorted.Perm [("1.1.0", ⟨"x", "1.1.0", [], "u"⟩), ("1.0.0", ⟨"x", "1.0.0", [], "u"⟩)] ∧
      List.Sorted pairLe sorted :=
  ⟨by decide, c6_sort_amended.1 _ (by decide)⟩

/-- C7 counterexample: installing `A@1.0.0` whose sole dependency
`B = "=1.0.0"` is a cache hit leaves `A`'s lock record with an empty
dependency list and produces no event at all for `B` — the installer does
not call `append_version` (`record_child`) with the cached fingerprint, and
does not materialize it; it merely skips the dependency. -/
theorem c7_cache_skip_counterexample :
    installPackage ⟨[], [], [], ⟨[("B", ⟨"1.0.0", false⟩)], some []⟩⟩ 5
        ⟨"A", "1.0.0", [("B", "=1.0.0")], "urlA"⟩ false ⟨[], 0, []⟩
      = (⟨[("A@1.0.0", ⟨false, []⟩)], 0,
          [Event.download "A@1.0.0", Event.insertFp "A@1.0.0"]⟩, Except.ok ())
  ∧ alookup (installPackage ⟨[], [], [], ⟨[("B", ⟨"1.0.0", false⟩)], some []⟩⟩ 5
        ⟨"A", "1.0.0", [("B", "=1.0.0")], "urlA"⟩ false ⟨[], 0, []⟩).1.depMap "A@1.0.0"
      = some ⟨false, []⟩ :=
  ⟨rfl, rfl⟩

/-- C7 (amended): when the cache lookup for a declared dependency reports a
hit, the installer performs no network call for it and does not touch the
run state at all — no `record_child`, no materialization — and the
dependency loop simply continues with the remaining dependencies. -/
theorem c7_cache_skip_amended (env : InstallEnv)
    (recur : VersionData → Bool → St → St × Except RunError Unit)
    (parent : String) (st : St) (name range : String) (v : Comparator) (w : Option String)
    (rest : List (String × String))
    (hv : parseRange range = some v)
    (hc : cacheExists env.cache name (resolveFullVersion (some v)) (some v) = Except.ok (true, w)) :
    List.foldl (installStep env recur parent) (st, Except.ok ()) ((name, range) :: rest)
      = List.foldl (installStep env recur parent) (st, Except.ok ()) rest := by
  rw [List.foldl_cons]
  congr 1
  simp [installStep, hv, hc]

/-- C7 witness: the amended claim at the concrete cached dependency
`B = "=1.0.0"`. -/
theorem c7_cache_skip_amended_witness :
    List.foldl
        (installStep ⟨[], [], [], ⟨[("B", ⟨"1.0.0", false⟩)], some []⟩⟩
          (fun _ _ st => (st, Except.ok ())) "A@1.0.0")
        (⟨[], 0, []⟩, Except.ok ()) [("B", "=1.0.0")]
      = List.foldl
          (installStep ⟨[], [], [], ⟨[("B", ⟨"1.0.0", false⟩)], some []⟩⟩
            (fun _ _ st => (st, Except.ok ())) "A@1.0.0")
          (⟨[], 0, []⟩, Except.ok ()) [] :=
  c7_cache_skip_amended _ _ _ _ _ _ ⟨Op.exact, 1, some 0, some 0⟩ (some "1.0.0") []
    (by rfl) (by rfl)

/-- C8 counterexample: installing `A@1.0.0` → `B@1.0.0` → `C@1.0.0`, each
dependency declared with range `^1.0.0`, records `"B@^1.0.0"` — the
declared-range string, not `B`'s concrete fingerprint — in `A`'s lock
record, appends each child only to its immediate parent, and so neither
`"B@1.0.0"` nor `"C@1.0.0"` (nor `C` at all) appears in `A`'s dependency
list, contradicting the claimed concrete-fingerprint/full-ancestor-chain
propagation. -/
theorem c8_ancestor_counterexample :
    (installPackage ⟨[(("B", "1.0.0"), ⟨"B", "1.0.0", [("C", "^1.0.0")], "urlB"⟩),
          (("C", "1.0.0"), ⟨"C", "1.0.0", [], "urlC"⟩)], [], [], ⟨[], some []⟩⟩ 5
        ⟨"A", "1.0.0", [("B", "^1.0.0")], "urlA"⟩ false ⟨[], 0, []⟩).1.depMap
      = [("C@1.0.0", ⟨false, []⟩), ("B@1.0.0", ⟨false, ["C@^1.0.0"]⟩),
         ("A@1.0.0", ⟨false, ["B@^1.0.0"]⟩)]
  ∧ "B@1.0.0" ∉
      ((alookup (installPackage ⟨[(("B", "1.0.0"), ⟨"B", "1.0.0", [("C", "^1.0.0")], "urlB"⟩),
          (("C", "1.0.0"), ⟨"C", "1.0.0", [], "urlC"⟩)], [], [], ⟨[], some []⟩⟩ 5
        ⟨"A", "1.0.0", [("B", "^1.0.0")], "urlA"⟩ false ⟨[], 0, []⟩).1.depMap
        "A@1.0.0").getD (PackageLock.new false)).dependencies :=
  ⟨rfl, by decide⟩

/-- C8 (amended): `append_version` appends the child string — which the
dependency loop builds as `name@<declared-range-string>`, not the concrete
resolved fingerprint — to the lock record of exactly the one given parent
(the immediate parent), creating the parent's record if absent with
`is_latest` seeded from whether the parent string ends in `"latest"`, and
leaving every other fingerprint's record unchanged; consequently in the
`A → B → C` chain, `A`'s record holds `B`'s declared-range string and `B`'s
record holds `C`'s declared-range string. -/
theorem c8_append_amended :
    (∀ parent child m fp, alookup (appendVersion parent child m) fp =
      (if parent = fp then
        some (match alookup m parent with
          | some lock => ⟨lock.isLatest, lock.dependencies ++ [child]⟩
          | none => ⟨strEndsWith parent latestStr, [child]⟩)
      else alookup m fp))
  ∧ alookup (installPackage ⟨[(("B", "1.0.0"), ⟨"B", "1.0.0", [("C", "^1.0.0")], "urlB"⟩),
          (("C", "1.0.0"), ⟨"C", "1.0.0", [], "urlC"⟩)], [], [], ⟨[], some []⟩⟩ 5
        ⟨"A", "1.0.0", [("B", "^1.0.0")], "urlA"⟩ false ⟨[], 0, []⟩).1.depMap "A@1.0.0"
      = some ⟨false, ["B@^1.0.0"]⟩
  ∧ alookup (installPackage ⟨[(("B", "1.0.0"), ⟨"B", "1.0.0", [("C", "^1.0.0")], "urlB"⟩),
          (("C", "1.0.0"), ⟨"C", "1.0.0", [], "urlC"⟩)], [], [], ⟨[], some []⟩⟩ 5
        ⟨"A", "1.0.0", [("B", "^1.0.0")], "urlA"⟩ false ⟨[], 0, []⟩).1.depMap "B@1.0.0"
      = some ⟨false, ["C@^1.0.0"]⟩ := by
  refine ⟨fun parent child m fp => ?_, rfl, rfl⟩
  unfold appendVersion
  cases halk : alookup m parent with
  | some lock =>
      rw [alookup_aupdate, halk]
      rfl
  | none =>
      rw [alookup_ainsert]

/-- C9 counterexample: one unreadable lock file panics the whole one-time
cache load — the second, perfectly valid entry is never loaded — and a lock
file holding `isLatest: true` in an equivalent but whitespaced serialization
is read as `is_latest = false`, because the load reads fixed bytes 12..=15
rather than parsing the serialization. -/
theorem c9_cache_load_counterexample :
    getCachedVersions ⟨["a@1.0.0", "b@2.0.0"],
        [("a@1.0.0", none), ("b@2.0.0", some "\x7b\"isLatest\":true,\"dependencies\":[]\x7d")]⟩
      = Except.error (RunError.panicked "Failed to open lock file")
  ∧ getCachedVersions ⟨["a@1.0.0"],
        [("a@1.0.0", some "\x7b \"isLatest\": true, \"dependencies\": [] \x7d")]⟩
      = Except.ok [("a", ⟨"1.0.0", false⟩)] :=
  ⟨rfl, rfl⟩

/-- C9 (amended): during the one-time cache load, `is_latest` is obtained by
a fixed-byte-offset read — bytes 12..=15 of the lock file compared with the
literal `true`, correct only for the exact canonical serialization this tool
itself writes — and an unreadable lock file, or one shorter than 16 bytes,
panics and aborts the entire cache load rather than failing only that
entry. -/
theorem c9_cache_load_amended :
    (∀ e c : String, 16 ≤ c.length →
      getCachedVersions ⟨[e], [(e, some c)]⟩
        = Except.ok [((parseRawPackageDetails e).1,
            ⟨(parseRawPackageDetails e).2, decide (((c.toList.drop 12).take 4) = "true".toList)⟩)])
  ∧ (∀ (e : String) (rest : List String) (lc : List (String × Option String)),
      alookup lc e = none →
      getCachedVersions ⟨e :: rest, lc⟩
        = Except.error (RunError.panicked "Failed to open lock file"))
  ∧ (∀ (e : String) (rest : List String) (lc : List (String × Option String)) (c : String),
      alookup lc e = some (some c) → c.length < 16 →
      getCachedVersions ⟨e :: rest, lc⟩
        = Except.error (RunError.panicked "failed to fill whole buffer")) := by
  refine ⟨fun e c hlen => ?_, fun e rest lc h => ?_, fun e rest lc c h hlen => ?_⟩
  · have halk : alookup [(e, some c)] e = some (some c) := by
      unfold alookup
      rw [if_pos rfl]
    unfold getCachedVersions getCachedVersionsLoop readLockIsLatest
    rw [halk]
    dsimp only
    rw [if_neg (by omega)]
    rfl
  · unfold getCachedVersions getCachedVersionsLoop readLockIsLatest
    rw [h]
  · unfold getCachedVersions getCachedVersionsLoop readLockIsLatest
    rw [h]
    dsimp only
    rw [if_pos hlen]

/-- C9 witness for the amended claim, at the canonical lock serialization
this tool writes (where the offset read does yield the written value) and at
a concrete unreadable entry. -/
theorem c9_cache_load_amended_witness :
    16 ≤ ("\x7b\"isLatest\":true,\"dependencies\":[]\x7d" : String).length
  ∧ getCachedVersions ⟨["x@1.0.0"],
        [("x@1.0.0", some "\x7b\"isLatest\":true,\"dependencies\":[]\x7d")]⟩
      = Except.ok [("x", ⟨"1.0.0", true⟩)]
  ∧ getCachedVersions ⟨["y@2.0.0"], []⟩
      = Except.error (RunError.panicked "Failed to open lock file") := by
  refine ⟨by decide, ?_, ?_⟩
  · have h := c9_cache_load_amended.1 "x@1.0.0"
      "\x7b\"isLatest\":true,\"dependencies\":[]\x7d" (by decide)
    rw [h]
    rfl
  · exact c9_cache_load_amended.2.1 "y@2.0.0" [] [] rfl

theorem countEv_nil (e : Event) : countEv e [] = 0 := rfl

theorem inv_empty : Inv ⟨[], 0, []⟩ := by
  intro fp
  constructor <;> simp [countEv, alookup]

theorem inv_active (st : St) (a : Nat) (h : Inv st) : Inv { st with active := a } := h

/-- Freshly inserting an absent fingerprint together with its ghost
insertion event preserves the dedup invariant. -/
theorem inv_insert_fresh (st : St) (fp' : String) (lock : PackageLock) (a : Nat) (h : Inv st)
    (habs : alookup st.depMap fp' = none) :
    Inv { depMap := ainsert st.depMap fp' lock, active := a,
          events := Event.insertFp fp' :: st.events } := by
  intro fp
  obtain ⟨h1, h2⟩ := h fp
  by_cases hfp : fp' = fp
  · subst hfp
    obtain ⟨g1, g2⟩ := h fp'
    rw [habs] at g1
    simp only [Option.isSome_none, Bool.false_eq_true, if_false] at g1
    constructor
    · simp [countEv_cons, alookup_ainsert, g1]
    · simp only [countEv_cons, alookup_ainsert]
      simp only [reduceCtorEq, if_false]
      omega
  · constructor
    · simp [countEv_cons, alookup_ainsert, hfp, h1]
    · simp only [countEv_cons, alookup_ainsert, hfp]
      simp only [reduceCtorEq, if_false, Event.insertFp.injEq, hfp]
      omega

/-- The download step for a freshly inserted fingerprint preserves the dedup
invariant: the fingerprint was absent before its insertion, so its download
count was zero. -/
theorem inv_download_fresh (st : St) (fp' : String) (lock : PackageLock) (a : Nat) (h : Inv st)
    (habs : alookup st.depMap fp' = none) :
    Inv { depMap := ainsert st.depMap fp' lock, active := a,
          events := Event.download fp' :: Event.insertFp fp' :: st.events } := by
  have hbase := inv_insert_fresh st fp' lock a h habs
  intro fp
  obtain ⟨h1, h2⟩ := hbase fp
  simp only at h1 h2
  by_cases hfp : fp' = fp
  · subst hfp
    constructor
    · simpa [countEv_cons] using h1
    · obtain ⟨g1, g2⟩ := h fp'
      rw [habs] at g1
      simp only [Option.isSome_none, Bool.false_eq_true, if_false] at g1
      simp only [countEv_cons, reduceCtorEq, if_false, if_pos rfl] at h1 h2 ⊢
      omega
  · constructor
    · simpa [countEv_cons, Event.download.injEq, hfp] using h1
    · simp only [countEv_cons, reduceCtorEq, if_false, Event.download.injEq, Event.insertFp.injEq,
        hfp, if_false] at h2 ⊢
      omega

/-- A ghost metadata-fetch event never changes insertion or download counts,
so it preserves the dedup invariant. -/
theorem inv_fetch (st : St) (n : String) (h : Inv st) : Inv (pushEvent st (Event.fetch n)) := by
  intro fp
  obtain ⟨h1, h2⟩ := h fp
  unfold pushEvent
  constructor
  · simpa [countEv_cons] using h1
  · simpa [countEv_cons] using h2

/-- append_version preserves the dedup invariant: it either mutates an
existing record in place (no key change, no event) or freshly creates the
parent's record with its ghost insertion event. -/
theorem inv_appendVersionSt (p c : String) (st : St) (h : Inv st) :
    Inv (appendVersionSt p c st) := by
  unfold appendVersionSt
  cases halk : alookup st.depMap p with
  | some lock =>
      intro fp
      obtain ⟨h1, h2⟩ := h fp
      unfold appendVersion
      rw [halk]
      constructor
      · simp only []
        rw [alookup_aupdate]
        by_cases hfp : p = fp
        · subst hfp
          rw [if_pos rfl, halk]
          simpa [halk] using h1
        · rw [if_neg hfp]
          exact h1
      · exact h2
  | none =>
      have : appendVersion p c st.depMap
          = ainsert st.depMap p ⟨strEndsWith p latestStr, [c]⟩ := by
        unfold appendVersion
        rw [halk]
      rw [this]
      exact inv_insert_fresh st p ⟨strEndsWith p latestStr, [c]⟩ st.active h halk

/-- The dependency loop preserves the dedup invariant, given that the
recursive call does. -/
theorem inv_foldl (env : InstallEnv) (recur : VersionData → Bool → St → St × Except RunError Unit)
    (parent : String)
    (hrec : ∀ vd b st, Inv st → Inv (recur vd b st).1) :
    ∀ (deps : List (String × String)) (acc : St × Except RunError Unit),
      Inv acc.1 → Inv (deps.foldl (installStep env recur parent) acc).1 := by
  intro deps
  induction deps with
  | nil => exact fun acc h => h
  | cons d rest ih =>
      intro acc hacc
      rw [List.foldl_cons]
      apply ih
      obtain ⟨st, r⟩ := acc
      cases r with
      | error e => exact hacc
      | ok u =>
          unfold installStep
          cases hv : parseRange d.2 with
          | none => exact hacc
          | some v =>
              simp only []
              cases hc : cacheExists env.cache d.1 (resolveFullVersion (some v)) (some v) with
              | error e => exact hacc
              | ok pr =>
                  obtain ⟨isCached, w⟩ := pr
                  cases isCached with
                  | true => exact hacc
                  | false =>
                      simp only [Bool.false_eq_true, if_false]
                      cases hg : getVersionData env d.1 (resolveFullVersion (some v)) (some v) with
                      | error e => exact inv_fetch st d.1 hacc
                      | ok vd =>
                          exact hrec vd _ _
                            (inv_appendVersionSt parent (stringify d.1 d.2) _
                              (inv_fetch st d.1 hacc))

/-- install_package preserves the dedup invariant, for every fuel bound. -/
theorem inv_installPackage (env : InstallEnv) :
    ∀ (fuel : Nat) (vd : VersionData) (b : Bool) (st : St), Inv st →
      Inv (installPackage env fuel vd b st).1 := by
  intro fuel
  induction fuel with
  | zero => exact fun vd b st h => h
  | succ f ih =>
      intro vd b st h
      unfold installPackage alreadyResolvedSt alreadyResolved
      dsimp only
      cases halk : alookup st.depMap (stringify vd.name vd.version) with
      | some lock => exact h
      | none =>
          dsimp only
          by_cases hdl : env.failedUrls.contains vd.tarball
          · rw [if_pos hdl]
            exact inv_insert_fresh st _ _ _ h halk
          · rw [if_neg hdl]
            have hfold := inv_foldl env (installPackage env f) (stringify vd.name vd.version)
              (fun vd2 b2 st2 hi => ih vd2 b2 st2 hi) vd.dependencies
              (pushEvent
                { depMap := ainsert st.depMap (stringify vd.name vd.version) (PackageLock.new b),
                  active := st.active + 1,
                  events := Event.insertFp (stringify vd.name vd.version) :: st.events }
                (Event.download (stringify vd.name vd.version)), Except.ok ())
              (by
                unfold pushEvent
                exact inv_download_fresh st _ _ _ h halk)
            split
            next st4 u heq =>
                rw [heq] at hfold
                exact inv_active st4 _ hfold
            next st4 e heq =>
                rw [heq] at hfold
                exact hfold

/-- C1: already_resolved is a single check-and-insert on the dependency map
(the whole function body runs under one acquisition of the map's mutex):
when the fingerprint is a key it returns true and leaves the map unchanged,
otherwise it returns false and inserts a fresh PackageLock with the given
is_latest and no dependencies. Consequently, for every install run from an
empty map — over any dependency graph the environment describes, cyclic ones
included — every fingerprint in the final map was freshly inserted exactly
once (and absent fingerprints never), and the download/extraction hand-off
ran at most once per fingerprint; the concrete self-cycle A@1.0.0 -> A@1.0.0
terminates with exactly one download of A@1.0.0. -/
theorem c1_dedup_invariant :
    (∀ (name version : String) (isLatest : Bool) (m : DependencyMap),
      alreadyResolved name version isLatest m
        = ((alookup m (stringify name version)).isSome,
           if (alookup m (stringify name version)).isSome then m
           else ainsert m (stringify name version) (PackageLock.new isLatest)))
  ∧ (∀ (env : InstallEnv) (fuel : Nat) (vd : VersionData) (isLatest : Bool) (fp : String),
      countEv (Event.insertFp fp)
          (installPackage env fuel vd isLatest ⟨[], 0, []⟩).1.events
        = (if (alookup (installPackage env fuel vd isLatest ⟨[], 0, []⟩).1.depMap fp).isSome
           then 1 else 0)
      ∧ countEv (Event.download fp)
          (installPackage env fuel vd isLatest ⟨[], 0, []⟩).1.events ≤ 1)
  ∧ (installPackage ⟨[(("A", "1.0.0"), ⟨"A", "1.0.0", [("A", "=1.0.0")], "urlA"⟩)], [], [],
        ⟨[], some []⟩⟩ 5 ⟨"A", "1.0.0", [("A", "=1.0.0")], "urlA"⟩ false ⟨[], 0, []⟩).2
      = Except.ok ()
  ∧ countEv (Event.download "A@1.0.0")
      (installPackage ⟨[(("A", "1.0.0"), ⟨"A", "1.0.0", [("A", "=1.0.0")], "urlA"⟩)], [], [],
        ⟨[], some []⟩⟩ 5 ⟨"A", "1.0.0", [("A", "=1.0.0")], "urlA"⟩ false ⟨[], 0, []⟩).1.events
      = 1 := by
  refine ⟨fun name version isLatest m => ?_, fun env fuel vd isLatest fp => ?_, rfl, rfl⟩
  · unfold alreadyResolved
    dsimp only
    cases halk : alookup m (stringify name version) with
    | some lock => rfl
    | none => rfl
  · have hInv := inv_installPackage env fuel vd isLatest ⟨[], 0, []⟩ inv_empty
    obtain ⟨h1, h2⟩ := hInv fp
    refine ⟨h1, le_trans h2 ?_⟩
    rw [h1]
    by_cases hs : (alookup (installPackage env fuel vd isLatest ⟨[], 0, []⟩).1.depMap fp).isSome
    · rw [if_pos hs]
    · rw [if_neg hs]
      omega

theorem semVerLt_of_lt_of_le {a b c : SemVer} (h1 : SemVer.lt a b) (h2 : SemVer.le b c) :
    SemVer.lt a c := by
  unfold SemVer.lt SemVer.le at *
  omega

theorem semVerLt_of_le_of_lt {a b c : SemVer} (h1 : SemVer.le a b) (h2 : SemVer.lt b c) :
    SemVer.lt a c := by
  unfold SemVer.lt SemVer.le at *
  omega

/-- Equal version strings have equal sort keys; hence a list whose mapped
keys are distinct behaves strictly under the sorted order. -/
theorem sorted_strict (sortedL : List (String × VersionData))
    (hs : List.Sorted pairLe sortedL) (hnd : (sortedL.map keyOf).Nodup) :
    List.Pairwise (fun a b => SemVer.lt (keyOf a) (keyOf b)) sortedL := by
  have hnd2 : List.Pairwise (fun a b => keyOf a ≠ keyOf b) sortedL :=
    List.pairwise_map.1 hnd
  exact (hs.and hnd2).imp (fun h => semVerLt_of_le_of_ne h.1 h.2)

theorem findPos_none {α : Type} (p : α → Bool) :
    ∀ l : List α, findPos p l = none ↔ ∀ a ∈ l, p a = false := by
  intro l
  induction l with
  | nil => simp [findPos]
  | cons a rest ih =>
      unfold findPos
      by_cases hp : p a
      · simp [hp]
      · have hpf : p a = false := by simpa using hp
        rw [if_neg hp]
        constructor
        · intro h x hx
          rcases List.mem_cons.1 hx with hx | hx
          · subst hx
            exact hpf
          · exact (ih.1 (Option.map_eq_none'.1 h)) x hx
        · intro h
          rw [ih.2 (fun x hx => h x (List.mem_cons_of_mem a hx))]
          rfl

theorem findPos_some {α : Type} (p : α → Bool) :
    ∀ (l : List α) (i : Nat), findPos p l = some i →
      ∃ a, l.get? i = some a ∧ p a = true ∧
        ∀ j, j < i → ∀ b, l.get? j = some b → p b = false := by
  intro l
  induction l with
  | nil => intro i h; simp [findPos] at h
  | cons a rest ih =>
      intro i h
      unfold findPos at h
      by_cases hp : p a
      · rw [if_pos hp] at h
        cases h
        exact ⟨a, rfl, hp, fun j hj b hb => absurd hj (by omega)⟩
      · have hpf : p a = false := by simpa using hp
        rw [if_neg hp] at h
        obtain ⟨i0, hi0, hsum⟩ := Option.map_eq_some'.1 h
        subst hsum
        obtain ⟨x, hget, hpx, hbefore⟩ := ih i0 hi0
        refine ⟨x, by simpa using hget, hpx, fun j hj b hb => ?_⟩
        cases j with
        | zero =>
            simp only [List.get?] at hb
            cases hb
            exact hpf
        | succ j0 =>
            exact hbefore j0 (by omega) b (by simpa using hb)

/-- One unfolding of the descending scan, phrased with the sort key. -/
theorem descendingScan_cons (c : Comparator) (kv : String × VersionData)
    (rest : List (String × VersionData)) :
    descendingScan c (kv :: rest)
      = if c.matches (keyOf kv) then Except.ok (stringifyVer (keyOf kv))
        else descendingScan c rest := rfl

/-- The descending scan returns InvalidVersion when nothing matches. -/
theorem descendingScan_none (c : Comparator) :
    ∀ l : List (String × VersionData), (∀ kv ∈ l, c.matches (keyOf kv) = false) →
      descendingScan c l = Except.error (RunError.cmd CommandErr.invalidVersion) := by
  intro l
  induction l with
  | nil => intro _; rfl
  | cons kv rest ih =>
      intro h
      have hkv : c.matches (keyOf kv) = false := h kv (List.mem_cons_self kv rest)
      rw [descendingScan_cons, if_neg (by simp [hkv])]
      exact ih (fun x hx => h x (List.mem_cons_of_mem kv hx))

/-- On a descending list, the scan returns the re-stringified key of a
matching entry that is maximal among all matching entries. -/
theorem descendingScan_max (c : Comparator) :
    ∀ l : List (String × VersionData),
      List.Pairwise (fun a b => SemVer.le (keyOf b) (keyOf a)) l →
      (∃ kv ∈ l, c.matches (keyOf kv) = true) →
      ∃ x ∈ l, c.matches (keyOf x) = true ∧
        (∀ y ∈ l, c.matches (keyOf y) = true → SemVer.le (keyOf y) (keyOf x)) ∧
        descendingScan c l = Except.ok (stringifyVer (keyOf x)) := by
  intro l
  induction l with
  | nil => intro _ h; simp at h
  | cons kv rest ih =>
      intro hdesc hex
      by_cases hkv : c.matches (keyOf kv) = true
      · refine ⟨kv, List.mem_cons_self kv rest, hkv, ?_, ?_⟩
        · intro y hy _
          rcases List.mem_cons.1 hy with hy | hy
          · subst hy
            exact semVerLe_refl _
          · exact (List.pairwise_cons.1 hdesc).1 y hy
        · rw [descendingScan_cons, if_pos hkv]
      · have hex2 : ∃ x ∈ rest, c.matches (keyOf x) = true := by
          obtain ⟨x, hx, hmx⟩ := hex
          rcases List.mem_cons.1 hx with hx | hx
          · subst hx
            exact absurd hmx hkv
          · exact ⟨x, hx, hmx⟩
        obtain ⟨x, hx, hmx, hmax, hscan⟩ := ih (List.pairwise_cons.1 hdesc).2 hex2
        refine ⟨x, List.mem_cons_of_mem kv hx, hmx, ?_, ?_⟩
        · intro y hy hmy
          rcases List.mem_cons.1 hy with hy | hy
          · subst hy
            exact absurd hmy hkv
          · exact hmax y hy hmy
        · rw [descendingScan_cons, if_neg hkv]
          exact hscan

/-- When every key parses, resolution in the non-predecessor case reduces to
the descending scan of the sorted list. -/
theorem resolvePartial_scan (c : Comparator) (vs : List (String × VersionData))
    (hall : allKeysParse vs = true)
    (hscrut : (if c.op = Op.less then
        (match c.minor, c.patch with
         | some minor, some patch =>
             some (findPos (fun kv => kv.1 = stringifyFromNums c.major minor patch)
               (vs.insertionSort pairLe))
         | _, _ => none)
      else none) = (none : Option (Option Nat))) :
    resolvePartialVersion (some c) vs = descendingScan c (vs.insertionSort pairLe).reverse := by
  unfold resolvePartialVersion
  rw [sortVersionsChecked_ok vs hall]
  dsimp only
  rw [hscrut]

/-- C4: for a range whose operator is not the less-than predecessor form,
resolve_partial_version scans the sorted available versions from highest to
lowest: if nothing matches semantically it fails InvalidVersion, and
otherwise it returns (the canonical re-stringification of) a matching
version that is maximal — in semantic-version order — among all matching
versions; concretely, range caret-1.2.0 against {1.2.0, 1.2.5, 1.3.0, 2.0.0}
resolves to 1.3.0. -/
theorem c4_descending_match (c : Comparator) (vs : List (String × VersionData))
    (hop : c.op ≠ Op.less ∨ c.minor = none ∨ c.patch = none)
    (hparse : ∀ kv ∈ vs, (parseVersion kv.1).isSome = true) :
    ((∀ kv ∈ vs, c.matches (keyOf kv) = false) →
      resolvePartialVersion (some c) vs = Except.error (RunError.cmd CommandErr.invalidVersion))
  ∧ (∀ kv ∈ vs, c.matches (keyOf kv) = true →
      ∃ x ∈ vs, c.matches (keyOf x) = true ∧
        (∀ y ∈ vs, c.matches (keyOf y) = true → SemVer.le (keyOf y) (keyOf x)) ∧
        resolvePartialVersion (some c) vs = Except.ok (stringifyVer (keyOf x)))
  ∧ resolvePartialVersion (some ⟨Op.caret, 1, some 2, some 0⟩)
      [("1.2.0", ⟨"x", "1.2.0", [], "u"⟩), ("1.2.5", ⟨"x", "1.2.5", [], "u"⟩),
       ("1.3.0", ⟨"x", "1.3.0", [], "u"⟩), ("2.0.0", ⟨"x", "2.0.0", [], "u"⟩)]
      = Except.ok "1.3.0" := by
  have hall : allKeysParse vs = true := by
    unfold allKeysParse
    rw [List.all_eq_true]
    exact hparse
  have hscrut : (if c.op = Op.less then
      (match c.minor, c.patch with
       | some minor, some patch =>
           some (findPos (fun kv => kv.1 = stringifyFromNums c.major minor patch)
             (vs.insertionSort pairLe))
       | _, _ => none)
    else none) = (none : Option (Option Nat)) := by
    rcases hop with h | h | h
    · rw [if_neg h]
    · by_cases hl : c.op = Op.less
      · rw [if_pos hl, h]
      · rw [if_neg hl]
    · by_cases hl : c.op = Op.less
      · rw [if_pos hl, h]
        cases c.minor <;> rfl
      · rw [if_neg hl]
  have hres := resolvePartial_scan c vs hall hscrut
  have hperm : (vs.insertionSort pairLe).Perm vs := List.perm_insertionSort pairLe vs
  have hsorted : List.Sorted pairLe (vs.insertionSort pairLe) :=
    List.sorted_insertionSort pairLe vs
  have hdesc : List.Pairwise (fun a b => SemVer.le (keyOf b) (keyOf a))
      (vs.insertionSort pairLe).reverse := List.pairwise_reverse.2 hsorted
  refine ⟨fun hnone => ?_, fun kv hkv hm => ?_, rfl⟩
  · rw [hres]
    exact descendingScan_none c _ (fun x hx =>
      hnone x (hperm.mem_iff.1 (List.mem_reverse.1 hx)))
  · have hex : ∃ x ∈ (vs.insertionSort pairLe).reverse, c.matches (keyOf x) = true :=
      ⟨kv, List.mem_reverse.2 (hperm.mem_iff.2 hkv), hm⟩
    obtain ⟨x, hx, hmx, hmax, hscan⟩ := descendingScan_max c _ hdesc hex
    refine ⟨x, hperm.mem_iff.1 (List.mem_reverse.1 hx), hmx, fun y hy hmy => ?_, ?_⟩
    · exact hmax y (List.mem_reverse.2 (hperm.mem_iff.2 hy)) hmy
    · rw [hres]
      exact hscan

/-- C4 witness: the theorem applied to range caret-1.2.0 and the concrete
list {1.2.0, 1.2.5, 1.3.0, 2.0.0}, where 1.2.0 itself matches. -/
theorem c4_descending_match_witness :
    ∃ x ∈ [(("1.2.0" : String), (⟨"x", "1.2.0", [], "u"⟩ : VersionData)),
           ("1.2.5", ⟨"x", "1.2.5", [], "u"⟩), ("1.3.0", ⟨"x", "1.3.0", [], "u"⟩),
           ("2.0.0", ⟨"x", "2.0.0", [], "u"⟩)],
      Comparator.matches ⟨Op.caret, 1, some 2, some 0⟩ (keyOf x) = true ∧
      (∀ y ∈ [(("1.2.0" : String), (⟨"x", "1.2.0", [], "u"⟩ : VersionData)),
           ("1.2.5", ⟨"x", "1.2.5", [], "u"⟩), ("1.3.0", ⟨"x", "1.3.0", [], "u"⟩),
           ("2.0.0", ⟨"x", "2.0.0", [], "u"⟩)],
         Comparator.matches ⟨Op.caret, 1, some 2, some 0⟩ (keyOf y) = true →
           SemVer.le (keyOf y) (keyOf x)) ∧
      resolvePartialVersion (some ⟨Op.caret, 1, some 2, some 0⟩)
        [("1.2.0", ⟨"x", "1.2.0", [], "u"⟩), ("1.2.5", ⟨"x", "1.2.5", [], "u"⟩),
         ("1.3.0", ⟨"x", "1.3.0", [], "u"⟩), ("2.0.0", ⟨"x", "2.0.0", [], "u"⟩)]
        = Except.ok (stringifyVer (keyOf x)) :=
  (c4_descending_match ⟨Op.caret, 1, some 2, some 0⟩ _
      (Or.inl (by decide)) (by decide)).2.1
    ("1.2.0", ⟨"x", "1.2.0", [], "u"⟩) (by decide) (by decide)

/-- When every key parses and the comparator is a full less-than triple,
resolution reduces to the exact-match predecessor branch over the sorted
list. -/
theorem resolvePartial_less (c : Comparator) (m p : Nat) (vs : List (String × VersionData))
    (hop : c.op = Op.less) (hm : c.minor = some m) (hp : c.patch = some p)
    (hall : allKeysParse vs = true) :
    resolvePartialVersion (some c) vs =
      (match findPos (fun kv => kv.1 = stringifyFromNums c.major m p)
          (vs.insertionSort pairLe) with
       | none => Except.error (RunError.cmd CommandErr.invalidVersion)
       | some pos =>
           if pos = 0 then Except.error (RunError.panicked "No previous version found")
           else
             (match (vs.insertionSort pairLe).get? (pos - 1) with
              | some kv => Except.ok kv.1
              | none => Except.error (RunError.panicked "No previous version found"))) := by
  unfold resolvePartialVersion
  rw [sortVersionsChecked_ok vs hall]
  dsimp only
  rw [if_pos hop, hm, hp]
  dsimp only
  cases hfp : findPos (fun kv => kv.1 = stringifyFromNums c.major m p)
      (vs.insertionSort pairLe) with
  | none => rfl
  | some pos => rfl

/-- C3: for a range with operator less-than and a full major.minor.patch
triple, resolve_partial_version sorts the available versions ascending,
locates the exact entry whose key equals "major.minor.patch", and returns
the immediately preceding entry in that order — the maximal available
version strictly below the target; if no exact match exists it fails with
InvalidVersion, and if the match is the very first (minimal) entry the
missing predecessor is an error (the underflowing lookup panics);
concretely, range less-than-1.2.0 against {1.0.0, 1.1.0, 1.2.0, 1.3.0}
resolves to 1.1.0. -/
theorem c3_predecessor_rule (c : Comparator) (m p : Nat) (vs : List (String × VersionData))
    (hop : c.op = Op.less) (hm : c.minor = some m) (hp : c.patch = some p)
    (hparse : ∀ kv ∈ vs, (parseVersion kv.1).isSome = true)
    (hnd : (vs.map keyOf).Nodup) :
    ((stringifyFromNums c.major m p ∉ vs.map Prod.fst) →
      resolvePartialVersion (some c) vs = Except.error (RunError.cmd CommandErr.invalidVersion))
  ∧ (∀ t ∈ vs, t.1 = stringifyFromNums c.major m p →
      ((∀ u ∈ vs, SemVer.le (keyOf t) (keyOf u)) →
        resolvePartialVersion (some c) vs
          = Except.error (RunError.panicked "No previous version found"))
      ∧ ((∃ u ∈ vs, SemVer.lt (keyOf u) (keyOf t)) →
        ∃ x ∈ vs, SemVer.lt (keyOf x) (keyOf t) ∧
          (∀ u ∈ vs, SemVer.lt (keyOf u) (keyOf t) → SemVer.le (keyOf u) (keyOf x)) ∧
          resolvePartialVersion (some c) vs = Except.ok x.1))
  ∧ resolvePartialVersion (some ⟨Op.less, 1, some 2, some 0⟩)
      [("1.0.0", ⟨"x", "1.0.0", [], "u"⟩), ("1.1.0", ⟨"x", "1.1.0", [], "u"⟩),
       ("1.2.0", ⟨"x", "1.2.0", [], "u"⟩), ("1.3.0", ⟨"x", "1.3.0", [], "u"⟩)]
      = Except.ok "1.1.0" := by
  have hall : allKeysParse vs = true := by
    unfold allKeysParse
    rw [List.all_eq_true]
    exact hparse
  have hred := resolvePartial_less c m p vs hop hm hp hall
  have hperm : (vs.insertionSort pairLe).Perm vs := List.perm_insertionSort pairLe vs
  have hsorted : List.Sorted pairLe (vs.insertionSort pairLe) :=
    List.sorted_insertionSort pairLe vs
  have hndS : ((vs.insertionSort pairLe).map keyOf).Nodup := (hperm.map keyOf).nodup_iff.2 hnd
  have hstrict := sorted_strict _ hsorted hndS
  have hget := List.pairwise_iff_get.1 hstrict
  refine ⟨fun habs => ?_, fun t htv ht => ⟨fun hmin => ?_, fun hex => ?_⟩, rfl⟩
  · have hfp : findPos (fun kv => kv.1 = stringifyFromNums c.major m p)
        (vs.insertionSort pairLe) = none := by
      rw [findPos_none]
      intro a ha
      apply decide_eq_false
      intro he
      exact habs (he ▸ List.mem_map_of_mem Prod.fst (hperm.mem_iff.1 ha))
    rw [hred, hfp]
  · have htS : t ∈ vs.insertionSort pairLe := hperm.mem_iff.2 htv
    cases hfp : findPos (fun kv => kv.1 = stringifyFromNums c.major m p)
        (vs.insertionSort pairLe) with
    | none =>
        exfalso
        exact of_decide_eq_false ((findPos_none _ _).1 hfp t htS) ht
    | some pos =>
        obtain ⟨a, hgeta, hpa, hbefore⟩ := findPos_some _ _ pos hfp
        have ha1 : a.1 = stringifyFromNums c.major m p := of_decide_eq_true hpa
        have hkey : keyOf a = keyOf t := by
          unfold keyOf
          rw [ha1, ht]
        obtain ⟨hposlen, hgeta2⟩ := List.get?_eq_some.1 hgeta
        have hpos0 : pos = 0 := by
          by_contra hne
          have h0len : 0 < (vs.insertionSort pairLe).length := by omega
          have hlt := hget ⟨0, h0len⟩ ⟨pos, hposlen⟩ (Fin.mk_lt_mk.mpr (by omega))
          rw [hgeta2, hkey] at hlt
          have hble := hmin ((vs.insertionSort pairLe).get ⟨0, h0len⟩)
            (hperm.mem_iff.1 (List.get_mem _ _ _))
          exact semVerLt_irrefl _ (semVerLt_of_le_of_lt hble hlt)
        subst hpos0
        rw [hred, hfp]
        rfl
  · have htS : t ∈ vs.insertionSort pairLe := hperm.mem_iff.2 htv
    cases hfp : findPos (fun kv => kv.1 = stringifyFromNums c.major m p)
        (vs.insertionSort pairLe) with
    | none =>
        exfalso
        exact of_decide_eq_false ((findPos_none _ _).1 hfp t htS) ht
    | some pos =>
        obtain ⟨a, hgeta, hpa, hbefore⟩ := findPos_some _ _ pos hfp
        have ha1 : a.1 = stringifyFromNums c.major m p := of_decide_eq_true hpa
        have hkey : keyOf a = keyOf t := by
          unfold keyOf
          rw [ha1, ht]
        obtain ⟨hposlen, hgeta2⟩ := List.get?_eq_some.1 hgeta
        have hposne : pos ≠ 0 := by
          intro h0
          subst h0
          obtain ⟨u, huv, hult⟩ := hex
          obtain ⟨⟨j, hj⟩, hgetu⟩ := List.mem_iff_get.1 (hperm.mem_iff.2 huv)
          cases Nat.eq_zero_or_pos j with
          | inl hj0 =>
              subst hj0
              have hua : u = a := by
                rw [← hgetu, ← hgeta2]
              rw [hua, hkey] at hult
              exact semVerLt_irrefl _ hult
          | inr hjpos =>
              have hlt := hget ⟨0, hposlen⟩ ⟨j, hj⟩ (Fin.mk_lt_mk.mpr hjpos)
              rw [hgeta2, hgetu, hkey] at hlt
              exact semVerLt_asymm hult hlt
        have hpos1 : pos - 1 < (vs.insertionSort pairLe).length := by omega
        have hgx : (vs.insertionSort pairLe).get? (pos - 1)
            = some ((vs.insertionSort pairLe).get ⟨pos - 1, hpos1⟩) := List.get?_eq_get hpos1
        have hxlt : SemVer.lt (keyOf ((vs.insertionSort pairLe).get ⟨pos - 1, hpos1⟩))
            (keyOf t) := by
          have hq := hget ⟨pos - 1, hpos1⟩ ⟨pos, hposlen⟩ (Fin.mk_lt_mk.mpr (by omega))
          rw [hgeta2, hkey] at hq
          exact hq
        refine ⟨(vs.insertionSort pairLe).get ⟨pos - 1, hpos1⟩,
          hperm.mem_iff.1 (List.get_mem _ _ _), hxlt, fun u huv hult => ?_, ?_⟩
        · obtain ⟨⟨j, hj⟩, hgetu⟩ := List.mem_iff_get.1 (hperm.mem_iff.2 huv)
          rcases lt_trichotomy j pos with hjp | hjp | hjp
          · rcases Nat.lt_or_ge j (pos - 1) with hj1 | hj1
            · have hq := hget ⟨j, hj⟩ ⟨pos - 1, hpos1⟩ (Fin.mk_lt_mk.mpr hj1)
              rw [hgetu] at hq
              exact semVerLe_of_lt hq
            · have hjeq : j = pos - 1 := by omega
              subst hjeq
              rw [← hgetu]
              exact semVerLe_refl _
          · exfalso
            subst hjp
            have hua : u = a := by
              rw [← hgetu, ← hgeta2]
            rw [hua, hkey] at hult
            exact semVerLt_irrefl _ hult
          · exfalso
            have hq := hget ⟨pos, hposlen⟩ ⟨j, hj⟩ (Fin.mk_lt_mk.mpr hjp)
            rw [hgeta2, hgetu, hkey] at hq
            exact semVerLt_asymm hult hq
        · rw [hred, hfp]
          dsimp only
          rw [if_neg hposne, hgx]

/-- C3 witness: the theorem applied at range less-than-1.2.0 and the
concrete set {1.0.0, 1.1.0, 1.2.0, 1.3.0}, with 1.2.0 the exact match and
1.0.0 a version strictly below it. -/
theorem c3_predecessor_rule_witness :
    ∃ x ∈ [(("1.0.0" : String), (⟨"x", "1.0.0", [], "u"⟩ : VersionData)),
           ("1.1.0", ⟨"x", "1.1.0", [], "u"⟩), ("1.2.0", ⟨"x", "1.2.0", [], "u"⟩),
           ("1.3.0", ⟨"x", "1.3.0", [], "u"⟩)],
      SemVer.lt (keyOf x) (keyOf ("1.2.0", ⟨"x", "1.2.0", [], "u"⟩)) ∧
      (∀ u ∈ [(("1.0.0" : String), (⟨"x", "1.0.0", [], "u"⟩ : VersionData)),
           ("1.1.0", ⟨"x", "1.1.0", [], "u"⟩), ("1.2.0", ⟨"x", "1.2.0", [], "u"⟩),
           ("1.3.0", ⟨"x", "1.3.0", [], "u"⟩)],
         SemVer.lt (keyOf u) (keyOf ("1.2.0", ⟨"x", "1.2.0", [], "u"⟩)) →
           SemVer.le (keyOf u) (keyOf x)) ∧
      resolvePartialVersion (some ⟨Op.less, 1, some 2, some 0⟩)
        [("1.0.0", ⟨"x", "1.0.0", [], "u"⟩), ("1.1.0", ⟨"x", "1.1.0", [], "u"⟩),
         ("1.2.0", ⟨"x", "1.2.0", [], "u"⟩), ("1.3.0", ⟨"x", "1.3.0", [], "u"⟩)]
        = Except.ok x.1 :=
  ((c3_predecessor_rule ⟨Op.less, 1, some 2, some 0⟩ 2 0
      [("1.0.0", ⟨"x", "1.0.0", [], "u"⟩), ("1.1.0", ⟨"x", "1.1.0", [], "u"⟩),
       ("1.2.0", ⟨"x", "1.2.0", [], "u"⟩), ("1.3.0", ⟨"x", "1.3.0", [], "u"⟩)]
      rfl rfl rfl (by decide) (by decide)).2.1
    ("1.2.0", ⟨"x", "1.2.0", [], "u"⟩) (by decide) (by decide)).2
    ⟨("1.0.0", ⟨"x", "1.0.0", [], "u"⟩), by decide, by decide⟩

end Pie
